import Mathlib

/-!
# MAVProxy WebUI — verification of the chunked-upload / analysis-session spec

This file embeds, in Lean 4, the parts of the MAVProxy web-dashboard
repository that the specification's testable properties talk about:

* the chunked-upload reassembly buffer (upload sessions keyed by chunk
  index, completion detection, in-order reassembly);
* the analysis-session cache (flight-mode range derivation, timeseries
  extraction with decimation, query behaviour on unknown names);
* the React front-end's upload path (`api.uploadFile` / `handleUpload`),
  the chat-message markdown formatter (`formatMessage`), and the AI-chat
  rate limiter (`sendMessage` / `autoAnalyzeGraph`).

The back-end server code (Flask `api/index.py` / `server/analyze_server.py`)
is not part of the checked-in sources; where a definition covers it, the
doc comment says `Modelled from the spec:` and follows the specification's
wording.  Front-end definitions are translated directly from the JavaScript
sources under `webui-react/src`.
-/

namespace MAVWebUI

/-! ## Upload sessions (spec §3, §4.1, §4.2)

Modelled from the spec: the back-end chunk receiver and reassembly buffer
are not among the checked-in sources; the model follows §3 (UploadSession),
§4.1 (Chunk Receiver) and §4.2 (Reassembly Buffer) of the specification.
Chunk payloads are byte lists (`List Nat`); the chunk map is an ordered
association list from chunk index to payload. -/

/-- Modelled from the spec: an in-flight upload session (§3 `UploadSession`,
restricted to the fields the reassembly properties use): the declared
`total_chunks` and the ordered map chunk index → payload bytes. -/
structure UploadSession where
  total_chunks : Nat
  chunk_bytes : List (Nat × List Nat)
  deriving Repr, DecidableEq

/-- Modelled from the spec: the session created on first sight of an
`upload_id` (§3 lifecycle), with no chunks received yet. -/
def emptySession (n : Nat) : UploadSession :=
  { total_chunks := n, chunk_bytes := [] }

/-- Modelled from the spec: store a payload at a chunk index in the ordered
chunk map, overwriting the existing entry for that index if present
(§4.1: duplicate chunks overwrite, idempotent). -/
def setChunk : List (Nat × List Nat) → Nat → List Nat → List (Nat × List Nat)
  | [], i, b => [(i, b)]
  | (k, v) :: t, i, b =>
      if k = i then (i, b) :: t else (k, v) :: setChunk t i b

/-- Modelled from the spec: `receive_chunk` (§4.1).  A chunk with an index
in `[0, total_chunks)` and a non-empty payload is appended into the
session's chunk map at `chunk_index`; an out-of-range index or empty
payload is rejected (client error) and the session is left unchanged. -/
def receive_chunk (s : UploadSession) (i : Nat) (b : List Nat) : UploadSession :=
  if i < s.total_chunks ∧ b ≠ [] then
    { s with chunk_bytes := setChunk s.chunk_bytes i b }
  else s

/-- Modelled from the spec: the set of chunk indices present (§3
`received_chunks`), as the distinct keys of the chunk map. -/
def received_chunks (s : UploadSession) : List Nat :=
  (s.chunk_bytes.map Prod.fst).dedup

/-- Modelled from the spec: completion is `|received_chunks| == total_chunks`
(§3). -/
def isComplete (s : UploadSession) : Bool :=
  (received_chunks s).length == s.total_chunks

/-- Modelled from the spec: `try_reassemble` (§4.2).  Only proceeds when the
completion invariant holds; concatenates the chunk payloads strictly in
`chunk_index` order `0..total_chunks-1`, independent of arrival order. -/
def try_reassemble (s : UploadSession) : Option (List Nat) :=
  if isComplete s then
    some (((List.range s.total_chunks).map
      (fun i => (s.chunk_bytes.lookup i).getD [])).flatten)
  else none

/-- Feed a whole arrival sequence of `(chunk_index, payload)` pairs to
`receive_chunk`, in order. -/
def receiveAll (s : UploadSession) (l : List (Nat × List Nat)) : UploadSession :=
  l.foldl (fun t p => receive_chunk t p.1 p.2) s

/-! ## Analysis sessions (spec §3, §4.3, §4.4)

Modelled from the spec: the back-end analysis-session cache and query
façade are not among the checked-in sources; the model follows §3
(`AnalysisSession`), §4.3 (Analysis Session Cache) and §4.4 (Query
Façade). -/

/-- Modelled from the spec: a decoded field value — numeric for plottable
fields, string for e.g. the mode-indicating field. -/
inductive FieldValue where
  | num (v : Int)
  | str (s : String)
  deriving Repr, DecidableEq

/-- Modelled from the spec: one decoded log message —
`(message_type, timestamp, field map)` (§3 `decoded_messages`). -/
structure LogMessage where
  mtype : String
  timestamp : Nat
  fields : List (String × FieldValue)
  deriving Repr, DecidableEq

/-- Modelled from the spec: one flight-mode range `{mode, start_time,
end_time}` (§3 `flight_mode_ranges`). -/
structure ModeRange where
  mode : String
  start_time : Nat
  end_time : Nat
  deriving Repr, DecidableEq

/-- Modelled from the spec: the collapsing scan over mode samples (§4.3) —
`cur` is the range being grown; a sample with the same mode extends the
current range's `end_time`, a sample with a new mode closes the current
range and opens a new one starting at that sample's timestamp. -/
def collapseGo : List (Nat × String) → ModeRange → List ModeRange
  | [], cur => [cur]
  | (t, m) :: rest, cur =>
      if m = cur.mode then collapseGo rest { cur with end_time := t }
      else cur :: collapseGo rest ⟨m, t, t⟩

/-- Modelled from the spec: derive `flight_mode_ranges` by scanning the
mode samples in timestamp order and collapsing consecutive samples with an
identical mode into one range; a mode change takes effect at the timestamp
of the first sample reporting the new mode (§4.3). -/
def deriveFlightModeRanges : List (Nat × String) → List ModeRange
  | [] => []
  | (t, m) :: rest => collapseGo rest ⟨m, t, t⟩

/-- Modelled from the spec: the `(timestamp, mode)` samples of the
designated mode-indicating message type (§4.3), in log order. -/
def extractModeSamples (modeType modeField : String)
    (msgs : List LogMessage) : List (Nat × String) :=
  msgs.filterMap (fun msg =>
    if msg.mtype = modeType then
      match msg.fields.lookup modeField with
      | some (FieldValue.str mo) => some (msg.timestamp, mo)
      | _ => none
    else none)

/-- Modelled from the spec: an analysis session (§3 `AnalysisSession`,
restricted to the fields the claims use): the decoded message sequence and
the derived flight-mode ranges. -/
structure AnalysisSession where
  decoded_messages : List LogMessage
  flight_mode_ranges : List ModeRange
  deriving Repr, DecidableEq

/-- Modelled from the spec: `create_session` decodes once and builds the
derived indices (§4.3); the decode itself is external, so the model takes
the decoded messages and the designated mode-indicating message type and
field as input. -/
def create_session (modeType modeField : String)
    (msgs : List LogMessage) : AnalysisSession :=
  { decoded_messages := msgs
    flight_mode_ranges :=
      deriveFlightModeRanges (extractModeSamples modeType modeField msgs) }

/-- Modelled from the spec: `flight_modes(token)` returns
`flight_mode_ranges` verbatim (§4.4). -/
def flight_modes (s : AnalysisSession) : List ModeRange :=
  s.flight_mode_ranges

/-- Modelled from the spec: the full (undecimated) ordered sequence of
`(timestamp, value)` pairs for one numeric field of one message type
(§4.4 `timeseries`); a message type or field absent from the log simply
contributes nothing. -/
def seriesAll (s : AnalysisSession) (mt f : String) : List (Nat × Int) :=
  s.decoded_messages.filterMap (fun msg =>
    if msg.mtype = mt then
      match msg.fields.lookup f with
      | some (FieldValue.num v) => some (msg.timestamp, v)
      | _ => none
    else none)

/-- Modelled from the spec: keep every `k`-th element (positions
`0, k, 2k, ...`), counting from position `i`: the first sample is always
included (§4.4). -/
def decim {α : Type} (k : Nat) : Nat → List α → List α
  | _, [] => []
  | i, a :: t => if i % k = 0 then a :: decim k (i + 1) t else decim k (i + 1) t

/-- Modelled from the spec: `timeseries(token, message_type, field,
decimate)` for an already-resolved session (§4.4): every `k`-th sample of
the full series, first sample always included; `decimate = 1` returns all
samples; unknown message type or field gives the empty sequence. -/
def timeseries (s : AnalysisSession) (mt f : String) (k : Nat) : List (Nat × Int) :=
  decim k 0 (seriesAll s mt f)

/-- Modelled from the spec: the `GET /timeseries` handler over the
process-wide token → session store (§4.3, §6): an unknown token is
`none` (404-equivalent); a known token always answers successfully, with
an empty series for unknown names. -/
def timeseriesQuery (store : List (String × AnalysisSession))
    (token mt f : String) (k : Nat) : Option (List (Nat × Int)) :=
  (store.lookup token).map (fun s => timeseries s mt f k)

/-- A small concrete session used by the witnesses: three ATT messages
with a numeric Roll field, plus mode-indicating MODE messages. -/
def sessEx : AnalysisSession :=
  create_session "MODE" "Mode"
    [ ⟨"MODE", 0, [("Mode", FieldValue.str "MANUAL")]⟩
    , ⟨"ATT", 1, [("Roll", FieldValue.num 1)]⟩
    , ⟨"ATT", 2, [("Roll", FieldValue.num 2)]⟩
    , ⟨"ATT", 3, [("Roll", FieldValue.num 3)]⟩ ]

/-! ## Front-end: upload path (from `webui-react/src/api.js` and
`webui-react/src/App.jsx`) -/

/-- One HTTP request issued by the front-end API client: method, path
relative to the API base `/api`, the multipart form-field names in append
order, the file bytes carried, and the serialized options string. -/
structure ApiRequest where
  method : String
  path : String
  formFields : List String
  fileBytes : List Nat
  optionsJson : String
  deriving Repr, DecidableEq

/-- From `api.js` (`uploadFile`): build one `FormData` holding the whole
file under the field `file` and the serialized options under `options`,
and issue a single `POST /analyze`; the result lists the requests the call
makes, in order. -/
def uploadFile (fileBytes : List Nat) (optionsJson : String) : List ApiRequest :=
  [{ method := "POST", path := "/analyze", formFields := ["file", "options"],
     fileBytes := fileBytes, optionsJson := optionsJson }]

/-- The analyze response body the server answers with:
`{token, analysis: {messages: {type: {fields: [...]}}}}`, with the message
map as an ordered association list type → field names. -/
structure AnalyzeResponse where
  token : String
  messages : List (String × List String)
  deriving Repr, DecidableEq

/-- The pieces of `App` component state that `handleUpload` sets. -/
structure AppState where
  token : Option String
  analysisMessages : Option (List (String × List String))
  selectedMsg : Option String
  selectedField : Option String
  deriving Repr, DecidableEq

/-- From `App.jsx` (`handleUpload`, success path): store `res.data.token`
and `res.data.analysis`, then select the first available message type and
its first field. -/
def handleUpload (resp : AnalyzeResponse) : AppState :=
  let firstMsg := (resp.messages.map Prod.fst).head?
  let firstField := firstMsg.bind (fun ms => (resp.messages.lookup ms).bind List.head?)
  { token := some resp.token
    analysisMessages := some resp.messages
    selectedMsg := firstMsg
    selectedField := firstField }

/-! ## Front-end: chat-message markdown formatter (from
`webui-react/src/components/GraphView.jsx`, `GraphAIChat.formatMessage`) -/

/-- One formatted part: a run of text and whether it is bold. -/
structure MsgPart where
  text : List Char
  bold : Bool
  deriving Repr, DecidableEq

/-- What the JavaScript regex metacharacter `.` matches (no `s` flag): any
character except a line terminator. -/
def isDot (c : Char) : Bool :=
  c != '\n' && c != '\r' && c != Char.ofNat 0x2028 && c != Char.ofNat 0x2029

/-- The lazy `(.+?)\*\*` tail of the regex `/\*\*(.+?)\*\*/`: find the
shortest non-empty run of `.`-matching characters followed by a literal
`**`; returns the enclosed run and the remainder after the closing `**`. -/
def findClose : List Char → Option (List Char × List Char)
  | [] => none
  | c :: rest =>
      if isDot c then
        match rest with
        | '*' :: '*' :: rem => some ([c], rem)
        | _ => (findClose rest).map (fun p => (c :: p.1, p.2))
      else none

/-- The scan `regex.exec` performs for `/\*\*(.+?)\*\*/g`: the leftmost
match of `\*\*(.+?)\*\*`, returned as (text before the match, enclosed
text, text after the match); `none` when no match exists. -/
def findMatch : List Char → Option (List Char × List Char × List Char)
  | [] => none
  | c :: t =>
      match c, t with
      | '*', '*' :: rest =>
          match findClose rest with
          | some (cont, rem) => some ([], cont, rem)
          | none => (findMatch t).map (fun p => ('*' :: p.1, p.2))
      | _, _ => (findMatch t).map (fun p => (c :: p.1, p.2))

/-- The `while ((match = regex.exec(text)) !== null)` loop of
`formatMessage`: emit the text before each match as a non-bold part and
the enclosed text as a bold part, then continue after the match; the text
after the last match becomes a final non-bold part.  `fuel` bounds the
number of loop iterations; `formatMessage` supplies `text.length`, which
is enough since every match consumes at least four characters. -/
def formatScanF : Nat → List Char → List MsgPart
  | fuel, s =>
      match fuel, findMatch s with
      | _, none => if s.isEmpty then [] else [⟨s, false⟩]
      | 0, some _ => [⟨s, false⟩]
      | fuel' + 1, some (pre, cont, rem) =>
          (if pre.isEmpty then [] else [⟨pre, false⟩]) ++
            ⟨cont, true⟩ :: formatScanF fuel' rem

/-- From `GraphView.jsx` (`formatMessage`): parse `**text**` markdown bold
syntax into a list of `{text, bold}` parts; when no parts were produced
(empty input), return the whole text as a single non-bold part. -/
def formatMessage (s : List Char) : List MsgPart :=
  match formatScanF s.length s with
  | [] => [⟨s, false⟩]
  | ps => ps

/-- Reassemble the original input from formatted parts by re-wrapping each
bold part in its `**` delimiters. -/
def rebuild (ps : List MsgPart) : List Char :=
  (ps.map (fun p => if p.bold then '*' :: '*' :: (p.text ++ ['*', '*']) else p.text)).flatten

/-- The input with every matched `**...**` pair's asterisks removed,
defined by the same iterated leftmost-lazy scan `regex.exec` performs
(independently of `formatMessage`'s part structure): before-match text and
enclosed text are kept, the four delimiter asterisks of each match are
dropped.  `fuel` bounds the iteration as in `formatScanF`. -/
def stripF : Nat → List Char → List Char
  | fuel, s =>
      match fuel, findMatch s with
      | _, none => s
      | 0, some _ => s
      | fuel' + 1, some (pre, cont, rem) => pre ++ cont ++ stripF fuel' rem

/-- The input with every matched pair's asterisks removed. -/
def stripMatches (s : List Char) : List Char :=
  stripF s.length s

/-- The texts enclosed by the matched `**...**` pairs of the input, in
match order, by the same iterated scan. -/
def boldTextsF : Nat → List Char → List (List Char)
  | fuel, s =>
      match fuel, findMatch s with
      | _, none => []
      | 0, some _ => []
      | fuel' + 1, some (_, cont, rem) => cont :: boldTextsF fuel' rem

/-- The enclosed texts of all matched pairs, in order. -/
def boldTexts (s : List Char) : List (List Char) :=
  boldTextsF s.length s

/-- The input text lying outside every matched `**...**` pair (delimiters
excluded), concatenated in order, by the same iterated scan. -/
def plainTextF : Nat → List Char → List Char
  | fuel, s =>
      match fuel, findMatch s with
      | _, none => s
      | 0, some _ => s
      | fuel' + 1, some (pre, _, rem) => pre ++ plainTextF fuel' rem

/-- The text outside all matched pairs, concatenated in order. -/
def plainText (s : List Char) : List Char :=
  plainTextF s.length s

/-! ## Front-end: AI-chat rate limiter (from
`webui-react/src/components/GraphView.jsx`, `GraphAIChat`) -/

/-- One chat message: `{role, content}`. -/
structure ChatMsg where
  role : String
  content : String
  deriving Repr, DecidableEq

/-- The `GraphAIChat` component state touched by the rate limiter. -/
structure ChatState where
  messages : List ChatMsg
  input : String
  loading : Bool
  lastRequestTime : Nat
  rateLimitError : Bool
  deriving Repr, DecidableEq

/-- `MIN_REQUEST_INTERVAL = 3000` — 3 seconds minimum between requests. -/
def MIN_REQUEST_INTERVAL : Nat := 3000

/-- JavaScript `String.prototype.trim`: strip leading and trailing
whitespace (modelled on the character list of the string). -/
def trimChars (l : List Char) : List Char :=
  ((l.dropWhile Char.isWhitespace).reverse.dropWhile Char.isWhitespace).reverse

/-- The rate-limit notice `sendMessage` appends, with
`remaining = Math.ceil((MIN_REQUEST_INTERVAL - timeSinceLastRequest)/1000)`. -/
def sendRateNotice (remaining : Nat) : ChatMsg :=
  { role := "assistant",
    content := "⏱️ **Please wait**: " ++ toString remaining ++
      "s before sending another message (Gemini API rate limit)" }

/-- The rate-limit notice `autoAnalyzeGraph` appends. -/
def analyzeRateNotice (remaining : Nat) : ChatMsg :=
  { role := "assistant",
    content := "⏱️ **Please wait**: " ++ toString remaining ++
      "s before analyzing another graph" }

/-- Result of one invocation: the updated state and whether the call
proceeded to issue a request to the AI API (`api.sendAIMessage`). -/
structure ChatStep where
  state : ChatState
  requestSent : Bool
  deriving Repr, DecidableEq

/-- From `GraphView.jsx` (`sendMessage`), modelled up to the point the AI
API request is issued: the empty-input/loading guard, the rate limiter
(append a notice, no request, `lastRequestTime` untouched), and otherwise
the state updates performed before calling `api.sendAIMessage`. -/
def sendMessage (now : Nat) (s : ChatState) : ChatStep :=
  if trimChars s.input.data = [] ∨ s.loading then ⟨s, false⟩
  else if now - s.lastRequestTime < MIN_REQUEST_INTERVAL then
    ⟨{ s with rateLimitError := true,
              messages := s.messages ++
                [sendRateNotice
                  ((MIN_REQUEST_INTERVAL - (now - s.lastRequestTime) + 999) / 1000)] },
      false⟩
  else
    ⟨{ s with rateLimitError := false,
              lastRequestTime := now,
              messages := s.messages ++ [⟨"user", s.input⟩],
              input := "",
              loading := true }, true⟩

/-- From `GraphView.jsx` (`autoAnalyzeGraph`), modelled up to the point
the AI API request is issued: the loading guard, the same rate limiter,
and the state updates performed before the graph capture and API call. -/
def autoAnalyzeGraph (now : Nat) (graphName : String) (s : ChatState) : ChatStep :=
  if s.loading then ⟨s, false⟩
  else if now - s.lastRequestTime < MIN_REQUEST_INTERVAL then
    ⟨{ s with rateLimitError := true,
              messages := s.messages ++
                [analyzeRateNotice
                  ((MIN_REQUEST_INTERVAL - (now - s.lastRequestTime) + 999) / 1000)] },
      false⟩
  else
    ⟨{ s with rateLimitError := false,
              lastRequestTime := now,
              messages := s.messages ++ [⟨"user", "📊 Analyze: " ++ graphName⟩],
              loading := true }, true⟩

/-! ### Chunk-map lemmas -/

theorem lookup_cons_self (k : Nat) (v : List Nat) (t : List (Nat × List Nat)) :
    ((k, v) :: t).lookup k = some v := by
  simp [List.lookup]

theorem lookup_cons_ne (k i : Nat) (v : List Nat) (t : List (Nat × List Nat))
    (h : i ≠ k) : ((k, v) :: t).lookup i = t.lookup i := by
  have hb : (i == k) = false := by simpa using h
  simp [List.lookup, hb]

theorem lookup_setChunk_self (m : List (Nat × List Nat)) (i : Nat) (b : List Nat) :
    (setChunk m i b).lookup i = some b := by
  induction m with
  | nil => simp [setChunk, List.lookup]
  | cons p t ih =>
      obtain ⟨k, v⟩ := p
      by_cases h : k = i
      · simp [setChunk, h, lookup_cons_self]
      · simp [setChunk, h, lookup_cons_ne k i v _ (Ne.symm h), ih]

theorem lookup_setChunk_other (m : List (Nat × List Nat)) (i j : Nat) (b : List Nat)
    (hij : j ≠ i) : (setChunk m i b).lookup j = m.lookup j := by
  induction m with
  | nil =>
      have hb : (j == i) = false := by simpa using hij
      simp [setChunk, List.lookup, hb]
  | cons p t ih =>
      obtain ⟨k, v⟩ := p
      by_cases h : k = i
      · subst h
        simp [setChunk, lookup_cons_ne k j b t hij, lookup_cons_ne k j v t hij]
      · by_cases hjk : j = k
        · subst hjk
          simp [setChunk, h, lookup_cons_self]
        · simp [setChunk, h, lookup_cons_ne k j v _ hjk,
            lookup_cons_ne k j v (setChunk t i b) hjk, ih]

theorem setChunk_keys_mem (m : List (Nat × List Nat)) (i j : Nat) (b : List Nat)
    (hj : j ∈ (setChunk m i b).map Prod.fst) :
    j ∈ m.map Prod.fst ∨ j = i := by
  induction m with
  | nil =>
      simp [setChunk] at hj
      exact Or.inr hj
  | cons p t ih =>
      obtain ⟨k, v⟩ := p
      by_cases h : k = i
      · subst h
        simp [setChunk] at hj
        rcases hj with hj | ⟨w, hj⟩
        · exact Or.inr hj
        · exact Or.inl (by simp; exact Or.inr ⟨w, hj⟩)
      · simp [setChunk, h] at hj
        rcases hj with hj | hj
        · exact Or.inl (by simp [hj])
        · rcases ih (by simpa using hj) with h' | h'
          · exact Or.inl (by simp at h' ⊢; exact Or.inr h')
          · exact Or.inr h'

theorem setChunk_eq_of_lookup (m : List (Nat × List Nat)) (i : Nat) (b : List Nat)
    (h : m.lookup i = some b) : setChunk m i b = m := by
  induction m with
  | nil => simp [List.lookup] at h
  | cons p t ih =>
      obtain ⟨k, v⟩ := p
      by_cases hk : k = i
      · subst hk
        simp [List.lookup] at h
        simp [setChunk, h]
      · rw [lookup_cons_ne k i v t (fun he => hk he.symm)] at h
        simp [setChunk, hk, ih h]

theorem mem_lookup_of_nodup (m : List (Nat × List Nat)) (i : Nat) (b : List Nat)
    (hnd : (m.map Prod.fst).Nodup) (hmem : (i, b) ∈ m) : m.lookup i = some b := by
  induction m with
  | nil => simp at hmem
  | cons p t ih =>
      obtain ⟨k, v⟩ := p
      simp at hnd
      rcases List.mem_cons.1 hmem with h | h
      · obtain ⟨h1, h2⟩ := Prod.mk.injEq .. ▸ h
        subst h1; subst h2
        exact lookup_cons_self i b t
      · have hik : i ≠ k := by
          intro he
          subst he
          exact hnd.1 b (by simpa using h)
        rw [lookup_cons_ne k i v t hik]
        exact ih hnd.2 h

theorem lookup_isSome_mem (m : List (Nat × List Nat)) (i : Nat)
    (h : (m.lookup i).isSome) : i ∈ m.map Prod.fst := by
  induction m with
  | nil => simp [List.lookup] at h
  | cons p t ih =>
      obtain ⟨k, v⟩ := p
      by_cases hik : i = k
      · simp [hik]
      · rw [lookup_cons_ne k i v t hik] at h
        simp [ih h]

/-! ### Fold lemmas for whole arrival sequences -/

theorem receive_chunk_total (s : UploadSession) (i : Nat) (b : List Nat) :
    (receive_chunk s i b).total_chunks = s.total_chunks := by
  unfold receive_chunk
  split <;> rfl

theorem receiveAll_cons (s : UploadSession) (p : Nat × List Nat)
    (t : List (Nat × List Nat)) :
    receiveAll s (p :: t) = receiveAll (receive_chunk s p.1 p.2) t := rfl

theorem receiveAll_total (s : UploadSession) (l : List (Nat × List Nat)) :
    (receiveAll s l).total_chunks = s.total_chunks := by
  induction l generalizing s with
  | nil => rfl
  | cons p t ih =>
      rw [receiveAll_cons, ih, receive_chunk_total]

theorem receiveAll_lookup_not_mem (l : List (Nat × List Nat)) (s : UploadSession)
    (i : Nat) (h : i ∉ l.map Prod.fst) :
    (receiveAll s l).chunk_bytes.lookup i = s.chunk_bytes.lookup i := by
  induction l generalizing s with
  | nil => rfl
  | cons p t ih =>
      obtain ⟨k, w⟩ := p
      obtain ⟨h1, h2⟩ : i ≠ k ∧ i ∉ t.map Prod.fst := by simpa using h
      have hstep : (receive_chunk s k w).chunk_bytes.lookup i =
          s.chunk_bytes.lookup i := by
        unfold receive_chunk
        split
        · exact lookup_setChunk_other _ _ _ _ h1
        · rfl
      rw [receiveAll_cons, ih _ h2, hstep]

theorem receiveAll_lookup_mem (l : List (Nat × List Nat)) (s : UploadSession)
    (i : Nat) (v : List Nat) (hnd : (l.map Prod.fst).Nodup)
    (hval : ∀ p ∈ l, p.1 < s.total_chunks ∧ p.2 ≠ [])
    (hmem : (i, v) ∈ l) :
    (receiveAll s l).chunk_bytes.lookup i = some v := by
  induction l generalizing s with
  | nil => simp at hmem
  | cons p t ih =>
      obtain ⟨k, w⟩ := p
      rw [List.map_cons, List.nodup_cons] at hnd
      have hkval := hval (k, w) (List.mem_cons_self _ _)
      have hrec : (receive_chunk s k w).chunk_bytes = setChunk s.chunk_bytes k w := by
        unfold receive_chunk
        rw [if_pos hkval]
      rcases List.mem_cons.1 hmem with he | hmem'
      · obtain ⟨h1, h2⟩ := Prod.mk.injEq .. ▸ he
        subst h1; subst h2
        rw [receiveAll_cons, receiveAll_lookup_not_mem t _ i hnd.1, hrec,
          lookup_setChunk_self]
      · rw [receiveAll_cons]
        refine ih _ hnd.2 ?_ hmem'
        intro q hq
        rw [receive_chunk_total]
        exact hval q (List.mem_cons_of_mem _ hq)

theorem receiveAll_keys_mem (l : List (Nat × List Nat)) (s : UploadSession)
    (i : Nat) (h : i ∈ (receiveAll s l).chunk_bytes.map Prod.fst) :
    i ∈ l.map Prod.fst ∨ i ∈ s.chunk_bytes.map Prod.fst := by
  induction l generalizing s with
  | nil => exact Or.inr h
  | cons p t ih =>
      obtain ⟨k, w⟩ := p
      rw [receiveAll_cons] at h
      rcases ih (receive_chunk s k w) h with h' | h'
      · exact Or.inl (by simp at h' ⊢; exact Or.inr h')
      · have hsplit : i ∈ s.chunk_bytes.map Prod.fst ∨ i = k := by
          unfold receive_chunk at h'
          split at h'
          · exact setChunk_keys_mem _ _ _ _ h'
          · exact Or.inl h'
        rcases hsplit with h'' | h''
        · exact Or.inr h''
        · exact Or.inl (by simp [h''])

/-! ### Completion -/

theorem isComplete_iff (s : UploadSession)
    (hInv : ∀ i ∈ s.chunk_bytes.map Prod.fst, i < s.total_chunks) :
    isComplete s = true ↔
      ∀ i < s.total_chunks, i ∈ s.chunk_bytes.map Prod.fst := by
  unfold isComplete received_chunks
  rw [beq_iff_eq]
  have hsub : (s.chunk_bytes.map Prod.fst).toFinset ⊆ Finset.range s.total_chunks := by
    intro j hj
    rw [List.mem_toFinset] at hj
    exact Finset.mem_range.2 (hInv j hj)
  constructor
  · intro hlen i hi
    have hcard : (Finset.range s.total_chunks).card ≤
        (s.chunk_bytes.map Prod.fst).toFinset.card := by
      rw [Finset.card_range, List.card_toFinset, hlen]
    have heq := Finset.eq_of_subset_of_card_le hsub hcard
    have : i ∈ (s.chunk_bytes.map Prod.fst).toFinset := by
      rw [heq]
      exact Finset.mem_range.2 hi
    exact List.mem_toFinset.1 this
  · intro hall
    have hsup : Finset.range s.total_chunks ⊆
        (s.chunk_bytes.map Prod.fst).toFinset := by
      intro i hi
      exact List.mem_toFinset.2 (hall i (Finset.mem_range.1 hi))
    have heq := Finset.Subset.antisymm hsub hsup
    rw [← List.card_toFinset, heq, Finset.card_range]

/-! ### Claim theorems about upload reassembly -/

/-- C1: For every upload session with `total_chunks` chunks and any
permutation of the order in which those chunks arrive, the byte stream
produced by `try_reassemble` is identical: it is the concatenation of the
chunk payloads strictly in ascending `chunk_index` order `0..total_chunks-1`,
independent of arrival order. -/
theorem reassembly_order_independence (n : Nat) (b : Nat → List Nat)
    (arrival : List (Nat × List Nat))
    (hperm : arrival.Perm ((List.range n).map (fun i => (i, b i))))
    (hb : ∀ i < n, b i ≠ []) :
    try_reassemble (receiveAll (emptySession n) arrival) =
      some (((List.range n).map b).flatten) := by
  have hkeys : (arrival.map Prod.fst).Perm (List.range n) := by
    have h := hperm.map Prod.fst
    simpa [List.map_map, Function.comp_def] using h
  have hnd : (arrival.map Prod.fst).Nodup :=
    (hkeys.nodup_iff).2 (List.nodup_range n)
  have hshape : ∀ p ∈ arrival, p.1 < n ∧ p.2 = b p.1 := by
    intro p hp
    have hp' := hperm.mem_iff.1 hp
    obtain ⟨i, hi, he⟩ := List.mem_map.1 hp'
    obtain ⟨h1, h2⟩ := Prod.mk.injEq .. ▸ he.symm
    exact ⟨h1 ▸ List.mem_range.1 hi, by rw [h2, h1]⟩
  have hval : ∀ p ∈ arrival, p.1 < (emptySession n).total_chunks ∧ p.2 ≠ [] := by
    intro p hp
    obtain ⟨h1, h2⟩ := hshape p hp
    exact ⟨h1, by rw [h2]; exact hb p.1 h1⟩
  have hlook : ∀ i < n,
      ((receiveAll (emptySession n) arrival).chunk_bytes.lookup i) = some (b i) := by
    intro i hi
    have hmem : (i, b i) ∈ arrival := by
      apply hperm.mem_iff.2
      exact List.mem_map.2 ⟨i, List.mem_range.2 hi, rfl⟩
    exact receiveAll_lookup_mem arrival (emptySession n) i (b i) hnd hval hmem
  have htot : (receiveAll (emptySession n) arrival).total_chunks = n :=
    receiveAll_total (emptySession n) arrival
  have hInv : ∀ i ∈ (receiveAll (emptySession n) arrival).chunk_bytes.map Prod.fst,
      i < (receiveAll (emptySession n) arrival).total_chunks := by
    intro i hi
    rw [htot]
    rcases receiveAll_keys_mem arrival (emptySession n) i hi with h' | h'
    · exact hkeys.mem_iff.1 h' |> List.mem_range.1
    · simp [emptySession] at h'
  have hcomp : isComplete (receiveAll (emptySession n) arrival) = true := by
    rw [isComplete_iff _ hInv]
    intro i hi
    rw [htot] at hi
    exact lookup_isSome_mem _ i (by rw [hlook i hi]; rfl)
  unfold try_reassemble
  rw [if_pos hcomp, htot]
  have hmap : (List.range n).map
      (fun i => ((receiveAll (emptySession n) arrival).chunk_bytes.lookup i).getD []) =
      (List.range n).map b := by
    apply List.map_congr_left
    intro i hi
    rw [hlook i (List.mem_range.1 hi)]
    rfl
  rw [hmap]

/-- Witness for C1 at the spec's scenario: three chunks sent in arrival
order `[2, 0, 1]` reassemble to the in-index-order concatenation. -/
theorem reassembly_order_independence_witness :
    try_reassemble (receiveAll (emptySession 3) [(2, [12]), (0, [10]), (1, [11])]) =
      some [10, 11, 12] := by
  have htgt : ((List.range 3).map (fun i => (i, [i + 10]))) =
      [(0, [10]), (1, [11])] ++ [(2, [12])] := by decide
  have h := reassembly_order_independence 3 (fun i => [i + 10])
    [(2, [12]), (0, [10]), (1, [11])]
    (htgt ▸ (List.perm_append_singleton _ _).symm) (by decide)
  exact h.trans (by decide)

/-- C2: reassembly (and hence the decode it triggers) runs iff
`received_chunks` holds exactly `total_chunks` distinct indices, all in
`[0, total_chunks)`; whenever one index is missing, decode is never
triggered. -/
theorem completion_exactness (s : UploadSession)
    (hInv : ∀ i ∈ s.chunk_bytes.map Prod.fst, i < s.total_chunks) :
    ((try_reassemble s).isSome ↔
        (received_chunks s).length = s.total_chunks ∧
          ∀ i ∈ received_chunks s, i < s.total_chunks) ∧
      ((try_reassemble s).isSome ↔
        ∀ i < s.total_chunks, i ∈ s.chunk_bytes.map Prod.fst) ∧
      ∀ j < s.total_chunks, j ∉ s.chunk_bytes.map Prod.fst →
        try_reassemble s = none := by
  have hrecv : ∀ i ∈ received_chunks s, i < s.total_chunks := by
    intro i hi
    exact hInv i (List.mem_dedup.1 hi)
  have hsome : (try_reassemble s).isSome ↔ isComplete s = true := by
    unfold try_reassemble
    by_cases h : isComplete s <;> simp [h]
  have hlen : isComplete s = true ↔ (received_chunks s).length = s.total_chunks := by
    unfold isComplete
    rw [beq_iff_eq]
  refine ⟨?_, ?_, ?_⟩
  · rw [hsome, hlen]
    exact ⟨fun h => ⟨h, hrecv⟩, fun h => h.1⟩
  · rw [hsome]
    exact isComplete_iff s hInv
  · intro j hj hjmem
    have : ¬ (try_reassemble s).isSome := by
      rw [hsome, isComplete_iff s hInv]
      intro hall
      exact hjmem (hall j hj)
    exact Option.not_isSome_iff_eq_none.1 this

/-- Witness for C2: a two-chunk session holding both chunks. -/
theorem completion_exactness_witness :
    (try_reassemble ⟨2, [(0, [7]), (1, [8])]⟩).isSome ↔
      ∀ i < 2, i ∈ ([(0, [7]), (1, [8])] : List (Nat × List Nat)).map Prod.fst :=
  ((completion_exactness ⟨2, [(0, [7]), (1, [8])]⟩ (by decide)).2).1

/-- C3: `receive_chunk` is idempotent for duplicates: re-sending chunk `i`
with identical bytes leaves the session unchanged, hence the final
reassembled output and the moment completion is reached are unchanged, and
the duplicate never counts a second time toward `total_chunks`. -/
theorem duplicate_chunk_idempotent (s : UploadSession) (i : Nat) (v : List Nat)
    (h : s.chunk_bytes.lookup i = some v) :
    receive_chunk s i v = s ∧
      try_reassemble (receive_chunk s i v) = try_reassemble s ∧
      isComplete (receive_chunk s i v) = isComplete s ∧
      ∀ rest : List (Nat × List Nat),
        receiveAll (receive_chunk s i v) rest = receiveAll s rest := by
  obtain ⟨tc, cb⟩ := s
  have he : receive_chunk ⟨tc, cb⟩ i v = ⟨tc, cb⟩ := by
    unfold receive_chunk
    split
    · simp only [setChunk_eq_of_lookup cb i v h]
    · rfl
  exact ⟨he, by rw [he], by rw [he], fun rest => by rw [he]⟩

/-- Witness for C3: re-sending chunk `0` with its existing payload leaves
the session unchanged. -/
theorem duplicate_chunk_idempotent_witness :
    receive_chunk ⟨2, [(0, [5])]⟩ 0 [5] = ⟨2, [(0, [5])]⟩ :=
  (duplicate_chunk_idempotent ⟨2, [(0, [5])]⟩ 0 [5] (by decide)).1

/-! ### Flight-mode range lemmas -/

theorem collapseGo_head (l : List (Nat × String)) (cur : ModeRange) (h : ModeRange)
    (hh : (collapseGo l cur).head? = some h) :
    h.mode = cur.mode ∧ h.start_time = cur.start_time := by
  induction l generalizing cur with
  | nil =>
      simp [collapseGo] at hh
      rw [← hh]
      exact ⟨rfl, rfl⟩
  | cons p rest ih =>
      obtain ⟨t, m⟩ := p
      unfold collapseGo at hh
      split at hh
      · simpa using ih { cur with end_time := t } hh
      · simp at hh
        rw [← hh]
        exact ⟨rfl, rfl⟩

theorem collapseGo_modes_chain (l : List (Nat × String)) (cur : ModeRange) :
    (collapseGo l cur).Chain' (fun a b => a.mode ≠ b.mode) := by
  induction l generalizing cur with
  | nil => simp [collapseGo]
  | cons p rest ih =>
      obtain ⟨t, m⟩ := p
      unfold collapseGo
      split
      · exact ih _
      · rename_i hne
        rw [List.chain'_cons']
        refine ⟨?_, ih _⟩
        intro y hy
        have hhead := collapseGo_head rest ⟨m, t, t⟩ y (Option.mem_def.1 hy)
        rw [hhead.1]
        exact fun he => hne he.symm

theorem collapseGo_sorted (l : List (Nat × String)) (cur : ModeRange)
    (hse : cur.start_time ≤ cur.end_time)
    (hch : List.Chain (· < ·) cur.end_time (l.map Prod.fst)) :
    (∀ r ∈ collapseGo l cur, r.start_time ≤ r.end_time) ∧
      (∀ r ∈ collapseGo l cur, cur.start_time ≤ r.start_time) ∧
      (collapseGo l cur).Pairwise (fun a b => a.end_time < b.start_time) := by
  induction l generalizing cur with
  | nil =>
      refine ⟨?_, ?_, ?_⟩ <;> simp [collapseGo]
      · exact hse
  | cons p rest ih =>
      obtain ⟨t, m⟩ := p
      rw [List.map_cons, List.chain_cons] at hch
      obtain ⟨hlt, hch2⟩ := hch
      unfold collapseGo
      split
      · exact ih { cur with end_time := t } (le_trans hse (le_of_lt hlt)) hch2
      · have ihh := ih ⟨m, t, t⟩ (le_refl t) hch2
        refine ⟨?_, ?_, ?_⟩
        · intro r hr
          rcases List.mem_cons.1 hr with h | h
          · subst h; exact hse
          · exact ihh.1 r h
        · intro r hr
          rcases List.mem_cons.1 hr with h | h
          · subst h; exact le_refl _
          · exact le_trans hse (le_trans (le_of_lt hlt) (ihh.2.1 r h))
        · rw [List.pairwise_cons]
          refine ⟨?_, ihh.2.2⟩
          intro r hr
          exact lt_of_lt_of_le hlt (ihh.2.1 r hr)

theorem derive_sorted (samples : List (Nat × String))
    (hsort : (samples.map Prod.fst).Pairwise (· < ·)) :
    (∀ r ∈ deriveFlightModeRanges samples, r.start_time ≤ r.end_time) ∧
      (deriveFlightModeRanges samples).Pairwise
        (fun a b => a.end_time < b.start_time) := by
  cases samples with
  | nil => simp [deriveFlightModeRanges]
  | cons p rest =>
      obtain ⟨t, m⟩ := p
      rw [List.map_cons] at hsort
      have hch : List.Chain (· < ·) t (rest.map Prod.fst) :=
        List.chain_iff_pairwise.2 hsort
      have h := collapseGo_sorted rest ⟨m, t, t⟩ (le_refl t) hch
      exact ⟨h.1, h.2.2⟩

/-! ### Claim theorems about the analysis session -/

/-- C4: `create_session` derives `flight_mode_ranges` by scanning the mode
samples in timestamp order and collapsing consecutive identical modes into
one range, a mode change taking effect at the timestamp of the first
sample reporting the new mode; on the spec's example the result is
`[{MANUAL,0,5}, {AUTO,6,20}]`, and no two adjacent derived ranges ever
share a mode. -/
theorem flight_modes_derivation :
    deriveFlightModeRanges [(0, "MANUAL"), (5, "MANUAL"), (6, "AUTO"), (20, "AUTO")] =
        [⟨"MANUAL", 0, 5⟩, ⟨"AUTO", 6, 20⟩] ∧
      (∀ samples : List (Nat × String),
        (deriveFlightModeRanges samples).Chain' (fun a b => a.mode ≠ b.mode)) ∧
      ∀ modeType modeField : String, ∀ msgs : List LogMessage,
        (create_session modeType modeField msgs).flight_mode_ranges =
          deriveFlightModeRanges (extractModeSamples modeType modeField msgs) := by
  refine ⟨by decide, ?_, fun _ _ _ => rfl⟩
  intro samples
  cases samples with
  | nil => simp [deriveFlightModeRanges]
  | cons p rest =>
      obtain ⟨t, m⟩ := p
      exact collapseGo_modes_chain rest ⟨m, t, t⟩

/-- C8: with strictly increasing mode-sample timestamps, the derived
`flight_mode_ranges` of a session are non-overlapping (each range ends
before the next begins), start times are monotonically non-decreasing,
each range is well-formed, and `flight_modes` returns the stored ranges
verbatim. -/
theorem flight_mode_ranges_invariant (modeType modeField : String)
    (msgs : List LogMessage)
    (hsort : ((extractModeSamples modeType modeField msgs).map Prod.fst).Pairwise
      (· < ·)) :
    ((create_session modeType modeField msgs).flight_mode_ranges.Pairwise
        (fun a b => a.end_time < b.start_time)) ∧
      ((create_session modeType modeField msgs).flight_mode_ranges.Pairwise
        (fun a b => a.start_time ≤ b.start_time)) ∧
      (∀ r ∈ (create_session modeType modeField msgs).flight_mode_ranges,
        r.start_time ≤ r.end_time) ∧
      flight_modes (create_session modeType modeField msgs) =
        (create_session modeType modeField msgs).flight_mode_ranges := by
  have h := derive_sorted (extractModeSamples modeType modeField msgs) hsort
  have hr : (create_session modeType modeField msgs).flight_mode_ranges =
      deriveFlightModeRanges (extractModeSamples modeType modeField msgs) := rfl
  rw [hr]
  refine ⟨h.2, ?_, h.1, rfl⟩
  apply h.2.imp_of_mem
  intro a b ha hb hab
  exact le_of_lt (lt_of_le_of_lt (h.1 a ha) hab)

/-- Witness for C8 at the spec's example log. -/
theorem flight_mode_ranges_invariant_witness :
    flight_modes (create_session "MODE" "Mode"
        [ ⟨"MODE", 0, [("Mode", FieldValue.str "MANUAL")]⟩
        , ⟨"MODE", 5, [("Mode", FieldValue.str "MANUAL")]⟩
        , ⟨"MODE", 6, [("Mode", FieldValue.str "AUTO")]⟩
        , ⟨"MODE", 20, [("Mode", FieldValue.str "AUTO")]⟩ ]) =
      (create_session "MODE" "Mode"
        [ ⟨"MODE", 0, [("Mode", FieldValue.str "MANUAL")]⟩
        , ⟨"MODE", 5, [("Mode", FieldValue.str "MANUAL")]⟩
        , ⟨"MODE", 6, [("Mode", FieldValue.str "AUTO")]⟩
        , ⟨"MODE", 20, [("Mode", FieldValue.str "AUTO")]⟩ ]).flight_mode_ranges :=
  (flight_mode_ranges_invariant "MODE" "Mode"
      [ ⟨"MODE", 0, [("Mode", FieldValue.str "MANUAL")]⟩
      , ⟨"MODE", 5, [("Mode", FieldValue.str "MANUAL")]⟩
      , ⟨"MODE", 6, [("Mode", FieldValue.str "AUTO")]⟩
      , ⟨"MODE", 20, [("Mode", FieldValue.str "AUTO")]⟩ ] (by decide)).2.2.2

/-! ### Decimation lemmas -/

theorem decim_sublist {α : Type} (k : Nat) (l : List α) :
    ∀ i, (decim k i l).Sublist l := by
  induction l with
  | nil => intro i; simp [decim]
  | cons a t ih =>
      intro i
      unfold decim
      split
      · exact (ih (i + 1)).cons₂ a
      · exact (ih (i + 1)).cons a

theorem decim_one {α : Type} (l : List α) : ∀ i, decim 1 i l = l := by
  induction l with
  | nil => intro i; simp [decim]
  | cons a t ih =>
      intro i
      unfold decim
      rw [if_pos (Nat.mod_one i), ih (i + 1)]

theorem decim_zero_cons {α : Type} (k : Nat) (a : α) (t : List α) :
    decim k 0 (a :: t) = a :: decim k 1 t := by
  simp [decim]

/-- C5: `timeseries` with decimation factor `k ≥ 1` returns a subsequence
of the undecimated series that always includes the first sample and
preserves the sample order (hence timestamp order); `decimate = 1` returns
every sample. -/
theorem decimate_monotonicity (s : AnalysisSession) (mt f : String) (k : Nat)
    (_hk : 1 ≤ k) :
    (timeseries s mt f k).Sublist (timeseries s mt f 1) ∧
      (timeseries s mt f k).head? = (timeseries s mt f 1).head? ∧
      timeseries s mt f 1 = seriesAll s mt f ∧
      ∀ R : (Nat × Int) → (Nat × Int) → Prop,
        (timeseries s mt f 1).Pairwise R → (timeseries s mt f k).Pairwise R := by
  have h1 : timeseries s mt f 1 = seriesAll s mt f := decim_one _ 0
  have hsub : (timeseries s mt f k).Sublist (timeseries s mt f 1) := by
    rw [h1]
    exact decim_sublist k _ 0
  refine ⟨hsub, ?_, h1, fun R hp => hp.sublist hsub⟩
  rw [h1]
  show (decim k 0 (seriesAll s mt f)).head? = (seriesAll s mt f).head?
  cases seriesAll s mt f with
  | nil => simp [decim]
  | cons a t =>
      rw [decim_zero_cons]
      rfl

/-- Witness for C5 on the concrete example session with `k = 2`. -/
theorem decimate_monotonicity_witness :
    (timeseries sessEx "ATT" "Roll" 2).Sublist (timeseries sessEx "ATT" "Roll" 1) ∧
      (timeseries sessEx "ATT" "Roll" 2).head? =
        (timeseries sessEx "ATT" "Roll" 1).head? :=
  ⟨(decimate_monotonicity sessEx "ATT" "Roll" 2 (by decide)).1,
    (decimate_monotonicity sessEx "ATT" "Roll" 2 (by decide)).2.1⟩

/-- C6: a query for a message type or field name absent from the decoded
log answers successfully with an empty series, and a known token always
answers successfully (the session is untouched — queries are pure reads of
the store). -/
theorem unknown_query_empty (store : List (String × AnalysisSession))
    (token : String) (s : AnalysisSession) (mt f : String) (k : Nat)
    (hs : store.lookup token = some s) :
    timeseriesQuery store token mt f k = some (timeseries s mt f k) ∧
      ((∀ msg ∈ s.decoded_messages, msg.mtype ≠ mt) →
        timeseriesQuery store token mt f k = some []) ∧
      ((∀ msg ∈ s.decoded_messages, msg.fields.lookup f = none) →
        timeseriesQuery store token mt f k = some []) := by
  have hq : timeseriesQuery store token mt f k = some (timeseries s mt f k) := by
    unfold timeseriesQuery
    rw [hs]
    rfl
  have hser : ∀ (hempty : seriesAll s mt f = []),
      timeseriesQuery store token mt f k = some [] := by
    intro hempty
    rw [hq]
    unfold timeseries
    rw [hempty]
    simp [decim]
  refine ⟨hq, ?_, ?_⟩
  · intro hmt
    apply hser
    unfold seriesAll
    rw [List.filterMap_eq_nil_iff]
    intro msg hmsg
    simp [hmt msg hmsg]
  · intro hf
    apply hser
    unfold seriesAll
    rw [List.filterMap_eq_nil_iff]
    intro msg hmsg
    by_cases hmty : msg.mtype = mt
    · simp [hmty, hf msg hmsg]
    · simp [hmty]

/-- Witness for C6: querying an unknown field on the example session. -/
theorem unknown_query_empty_witness :
    timeseriesQuery [("tok", sessEx)] "tok" "GPS" "Alt" 1 = some [] :=
  (unknown_query_empty [("tok", sessEx)] "tok" sessEx "GPS" "Alt" 1
      (by decide)).2.1 (by decide)

/-! ### Claim theorems about the front-end upload path -/

/-- C7 counterexample: at a concrete three-byte file, the upload performed
by `uploadFile` is not a sequence of `POST /upload_chunk` requests carrying
a `chunk_index` field — it is a single `POST /analyze`. -/
theorem upload_not_chunked :
    ¬ ∀ r ∈ uploadFile [1, 2, 3] "opts",
        r.path = "/upload_chunk" ∧ "chunk_index" ∈ r.formFields := by
  intro h
  have hr := h ⟨"POST", "/analyze", ["file", "options"], [1, 2, 3], "opts"⟩
    (by simp [uploadFile])
  exact absurd hr.1 (by decide)

/-- C7 (amended): every log upload is performed as one multipart
`POST /analyze` request whose body carries the whole file under the field
`file` plus the serialized options under `options`; its (single, final)
response carries `{token, analysis: {messages: ...}}`, and `handleUpload`
stores the token and analysis and selects the first message type. -/
theorem upload_single_analyze_request (fileBytes : List Nat)
    (optionsJson : String) (resp : AnalyzeResponse) :
    uploadFile fileBytes optionsJson =
        [{ method := "POST", path := "/analyze",
           formFields := ["file", "options"], fileBytes := fileBytes,
           optionsJson := optionsJson }] ∧
      (uploadFile fileBytes optionsJson).length = 1 ∧
      (handleUpload resp).token = some resp.token ∧
      (handleUpload resp).analysisMessages = some resp.messages ∧
      (handleUpload resp).selectedMsg = (resp.messages.map Prod.fst).head? :=
  ⟨rfl, rfl, rfl, rfl, rfl⟩

/-! ### Markdown-formatter lemmas -/

theorem findClose_spec (l : List Char) (cont rem : List Char)
    (h : findClose l = some (cont, rem)) :
    l = cont ++ '*' :: '*' :: rem := by
  induction l generalizing cont rem with
  | nil => simp [findClose] at h
  | cons c rest ih =>
      unfold findClose at h
      by_cases hd : isDot c = true
      · rw [if_pos hd] at h
        split at h
        · rename_i rem0
          obtain ⟨h1, h2⟩ := Prod.mk.injEq .. ▸ Option.some.inj h
          rw [← h1, ← h2]
          rfl
        · rw [Option.map_eq_some'] at h
          obtain ⟨p, hp, he⟩ := h
          obtain ⟨h1, h2⟩ := Prod.mk.injEq .. ▸ he
          rw [← h1, ← h2]
          have := ih p.1 p.2 (by rw [hp])
          rw [List.cons_append, ← this]
      · rw [if_neg hd] at h
        exact absurd h (by simp)

theorem findMatch_spec (s : List Char) (pre cont rem : List Char)
    (h : findMatch s = some (pre, cont, rem)) :
    s = pre ++ '*' :: '*' :: (cont ++ '*' :: '*' :: rem) := by
  induction s generalizing pre cont rem with
  | nil => simp [findMatch] at h
  | cons c t ih =>
      unfold findMatch at h
      split at h
      · rename_i rest
        split at h
        · rename_i cont0 rem0 hclose
          obtain ⟨h1, h2⟩ := Prod.mk.injEq .. ▸ Option.some.inj h
          obtain ⟨h3, h4⟩ := Prod.mk.injEq .. ▸ h2
          rw [← h1, ← h3, ← h4]
          have := findClose_spec rest cont0 rem0 hclose
          rw [List.nil_append, this]
        · rw [Option.map_eq_some'] at h
          obtain ⟨p, hp, he⟩ := h
          obtain ⟨h1, h2⟩ := Prod.mk.injEq .. ▸ he
          obtain ⟨hc, hr⟩ : p.2.1 = cont ∧ p.2.2 = rem := by
            constructor <;> rw [h2]
          have hit := ih p.1 p.2.1 p.2.2 (by rw [hp])
          rw [← h1, ← hc, ← hr, List.cons_append, ← hit]
      · rw [Option.map_eq_some'] at h
        obtain ⟨p, hp, he⟩ := h
        obtain ⟨h1, h2⟩ := Prod.mk.injEq .. ▸ he
        obtain ⟨hc, hr⟩ : p.2.1 = cont ∧ p.2.2 = rem := by
          constructor <;> rw [h2]
        have hit := ih p.1 p.2.1 p.2.2 (by rw [hp])
        rw [← h1, ← hc, ← hr, List.cons_append, ← hit]

theorem findMatch_length (s : List Char) (pre cont rem : List Char)
    (h : findMatch s = some (pre, cont, rem)) : rem.length < s.length := by
  have hs := findMatch_spec s pre cont rem h
  rw [hs]
  simp [List.length_append]
  omega

theorem rebuild_append (xs ys : List MsgPart) :
    rebuild (xs ++ ys) = rebuild xs ++ rebuild ys := by
  simp [rebuild]

theorem rebuild_cons (p : MsgPart) (ps : List MsgPart) :
    rebuild (p :: ps) =
      (if p.bold then '*' :: '*' :: (p.text ++ ['*', '*']) else p.text) ++
        rebuild ps := by
  simp [rebuild]

theorem formatScanF_no_match (fuel : Nat) (s : List Char)
    (h : findMatch s = none) :
    formatScanF fuel s = if s.isEmpty then [] else [⟨s, false⟩] := by
  cases fuel <;> simp [formatScanF, h]

theorem formatScanF_match (fuel : Nat) (s pre cont rem : List Char)
    (h : findMatch s = some (pre, cont, rem)) :
    formatScanF (fuel + 1) s =
      (if pre.isEmpty then [] else [⟨pre, false⟩]) ++
        ⟨cont, true⟩ :: formatScanF fuel rem := by
  conv_lhs => unfold formatScanF
  rw [h]

theorem formatScanF_spec (fuel : Nat) :
    ∀ s : List Char, s.length ≤ fuel →
      rebuild (formatScanF fuel s) = s ∧ (formatScanF fuel s = [] → s = []) := by
  induction fuel with
  | zero =>
      intro s hs
      have hnil : s = [] := List.length_eq_zero.1 (Nat.le_zero.1 hs)
      subst hnil
      rw [formatScanF_no_match 0 [] rfl]
      exact ⟨rfl, fun _ => rfl⟩
  | succ fuel ih =>
      intro s hs
      cases hm : findMatch s with
      | none =>
          rw [formatScanF_no_match _ s hm]
          by_cases he : s.isEmpty
          · rw [if_pos he]
            have hnil : s = [] := by simpa using he
            subst hnil
            exact ⟨rfl, fun _ => rfl⟩
          · rw [if_neg he]
            refine ⟨?_, by simp⟩
            simp [rebuild]
      | some trip =>
          obtain ⟨pre, cont, rem⟩ := trip
          rw [formatScanF_match fuel s pre cont rem hm]
          have hlen : rem.length ≤ fuel := by
            have := findMatch_length s pre cont rem hm
            omega
          have ihr := ih rem hlen
          have hs2 := findMatch_spec s pre cont rem hm
          constructor
          · rw [rebuild_append, rebuild_cons, ihr.1]
            have hpre : rebuild (if pre.isEmpty then [] else [⟨pre, false⟩]) = pre := by
              by_cases hp : pre.isEmpty
              · rw [if_pos hp]
                have : pre = [] := by simpa using hp
                rw [this]
                rfl
              · rw [if_neg hp]
                simp [rebuild]
            rw [hpre, hs2]
            simp
          · intro hcontr
            rcases List.append_eq_nil.1 hcontr with ⟨_, h2⟩
            simp at h2

theorem stripF_no_match (fuel : Nat) (s : List Char)
    (h : findMatch s = none) : stripF fuel s = s := by
  cases fuel <;> simp [stripF, h]

theorem stripF_match (fuel : Nat) (s pre cont rem : List Char)
    (h : findMatch s = some (pre, cont, rem)) :
    stripF (fuel + 1) s = pre ++ cont ++ stripF fuel rem := by
  conv_lhs => unfold stripF
  rw [h]

theorem boldTextsF_no_match (fuel : Nat) (s : List Char)
    (h : findMatch s = none) : boldTextsF fuel s = [] := by
  cases fuel <;> simp [boldTextsF, h]

theorem boldTextsF_match (fuel : Nat) (s pre cont rem : List Char)
    (h : findMatch s = some (pre, cont, rem)) :
    boldTextsF (fuel + 1) s = cont :: boldTextsF fuel rem := by
  conv_lhs => unfold boldTextsF
  rw [h]

theorem plainTextF_no_match (fuel : Nat) (s : List Char)
    (h : findMatch s = none) : plainTextF fuel s = s := by
  cases fuel <;> simp [plainTextF, h]

theorem plainTextF_match (fuel : Nat) (s pre cont rem : List Char)
    (h : findMatch s = some (pre, cont, rem)) :
    plainTextF (fuel + 1) s = pre ++ plainTextF fuel rem := by
  conv_lhs => unfold plainTextF
  rw [h]

theorem formatScanF_decomp (fuel : Nat) :
    ∀ s : List Char, s.length ≤ fuel →
      ((formatScanF fuel s).map MsgPart.text).flatten = stripF fuel s ∧
        ((formatScanF fuel s).filter (fun p => p.bold)).map MsgPart.text =
          boldTextsF fuel s ∧
        (((formatScanF fuel s).filter (fun p => p.bold = false)).map
            MsgPart.text).flatten = plainTextF fuel s := by
  induction fuel with
  | zero =>
      intro s hs
      have hnil : s = [] := List.length_eq_zero.1 (Nat.le_zero.1 hs)
      subst hnil
      rw [formatScanF_no_match 0 [] rfl, stripF_no_match 0 [] rfl,
        boldTextsF_no_match 0 [] rfl, plainTextF_no_match 0 [] rfl]
      exact ⟨rfl, rfl, rfl⟩
  | succ fuel ih =>
      intro s hs
      cases hm : findMatch s with
      | none =>
          rw [formatScanF_no_match _ s hm, stripF_no_match _ s hm,
            boldTextsF_no_match _ s hm, plainTextF_no_match _ s hm]
          by_cases he : s.isEmpty
          · have hnil : s = [] := by simpa using he
            subst hnil
            exact ⟨rfl, rfl, rfl⟩
          · rw [if_neg he]
            refine ⟨by simp, by simp, by simp⟩
      | some trip =>
          obtain ⟨pre, cont, rem⟩ := trip
          rw [formatScanF_match fuel s pre cont rem hm,
            stripF_match fuel s pre cont rem hm,
            boldTextsF_match fuel s pre cont rem hm,
            plainTextF_match fuel s pre cont rem hm]
          have hlen : rem.length ≤ fuel := by
            have := findMatch_length s pre cont rem hm
            omega
          have ihr := ih rem hlen
          by_cases hp : pre.isEmpty
          · have hpre : pre = [] := by simpa using hp
            subst hpre
            rw [if_pos (by simp)]
            refine ⟨?_, ?_, ?_⟩
            · simpa using ihr.1
            · simpa using ihr.2.1
            · simpa using ihr.2.2
          · rw [if_neg hp]
            refine ⟨?_, ?_, ?_⟩
            · simpa [List.append_assoc] using ihr.1
            · simpa using ihr.2.1
            · simpa using ihr.2.2

/-- C9: `formatMessage` always returns a non-empty part list;
concatenating the parts' texts in order yields the input with every
matched `**...**` pair's asterisks removed (`stripMatches`, defined by the
same iterated leftmost-lazy scan); the parts marked `bold = true` are
exactly the texts enclosed by the matched pairs, in match order
(`boldTexts`); the parts marked `bold = false` concatenate to exactly the
text outside all matched pairs (`plainText`); and re-wrapping each bold
part in its `**` delimiters reproduces the input, so every part sits at
its original position. -/
theorem formatMessage_spec (s : List Char) :
    formatMessage s ≠ [] ∧
      ((formatMessage s).map MsgPart.text).flatten = stripMatches s ∧
      ((formatMessage s).filter (fun p => p.bold)).map MsgPart.text =
        boldTexts s ∧
      (((formatMessage s).filter (fun p => p.bold = false)).map
          MsgPart.text).flatten = plainText s ∧
      rebuild (formatMessage s) = s := by
  have hd := formatScanF_decomp s.length s (le_refl _)
  have hspec := formatScanF_spec s.length s (le_refl _)
  unfold formatMessage stripMatches boldTexts plainText
  cases hf : formatScanF s.length s with
  | nil =>
      rw [hf] at hd hspec
      have hnil : s = [] := hspec.2 rfl
      subst hnil
      refine ⟨by simp, ?_, ?_, ?_, rfl⟩
      · rw [← hd.1]
        rfl
      · rw [← hd.2.1]
        rfl
      · rw [← hd.2.2]
        rfl
  | cons p ps =>
      rw [hf] at hd hspec
      exact ⟨by simp, hd.1, hd.2.1, hd.2.2, hspec.1⟩

/-! ### Claim theorems about the AI-chat rate limiter -/

/-- C10 counterexample: invoked while `loading` is true and within the
3-second window, `sendMessage` returns with the state completely
unchanged — in particular no rate-limit notice is appended to the message
list, because the `loading` guard precedes the rate check. -/
theorem chat_rate_limit_loading_no_notice :
    (1000 : Nat) - (ChatState.mk [] "hi" true 0 false).lastRequestTime <
        MIN_REQUEST_INTERVAL ∧
      sendMessage 1000 (ChatState.mk [] "hi" true 0 false) =
        ⟨ChatState.mk [] "hi" true 0 false, false⟩ := by
  constructor
  · decide
  · unfold sendMessage
    rw [if_pos (Or.inr rfl)]

/-- C10 (amended): once past the initial guard (not `loading`, and for
`sendMessage` a non-blank input), an invocation within 3000 ms of
`lastRequestTime` sends no API request, appends exactly one rate-limit
notice, and leaves `lastRequestTime` unchanged; an API request is only
ever issued when at least 3000 ms have elapsed, and then
`lastRequestTime` is set to the current time — so consecutive requests
are never less than 3000 ms apart.  When the guard fails, the call
returns with no request and no state change. -/
theorem chat_rate_limiter (now : Nat) (s : ChatState) (g : String)
    (hload : s.loading = false) :
    (trimChars s.input.data ≠ [] →
      now - s.lastRequestTime < MIN_REQUEST_INTERVAL →
        sendMessage now s =
          ⟨{ s with
              rateLimitError := true
              messages := s.messages ++
                [sendRateNotice
                  ((MIN_REQUEST_INTERVAL - (now - s.lastRequestTime) + 999) / 1000)] },
            false⟩) ∧
      (now - s.lastRequestTime < MIN_REQUEST_INTERVAL →
        autoAnalyzeGraph now g s =
          ⟨{ s with
              rateLimitError := true
              messages := s.messages ++
                [analyzeRateNotice
                  ((MIN_REQUEST_INTERVAL - (now - s.lastRequestTime) + 999) / 1000)] },
            false⟩) ∧
      ((sendMessage now s).requestSent = true →
        MIN_REQUEST_INTERVAL ≤ now - s.lastRequestTime ∧
          (sendMessage now s).state.lastRequestTime = now) ∧
      ((autoAnalyzeGraph now g s).requestSent = true →
        MIN_REQUEST_INTERVAL ≤ now - s.lastRequestTime ∧
          (autoAnalyzeGraph now g s).state.lastRequestTime = now) := by
  have hloadp : ¬ (s.loading = true) := by rw [hload]; simp
  refine ⟨?_, ?_, ?_, ?_⟩
  · intro hin hlt
    have hg : ¬ (trimChars s.input.data = [] ∨ s.loading = true) := by
      intro hor
      rcases hor with h1 | h1
      · exact hin h1
      · exact hloadp h1
    unfold sendMessage
    rw [if_neg hg, if_pos hlt]
  · intro hlt
    unfold autoAnalyzeGraph
    rw [if_neg hloadp, if_pos hlt]
  · intro hsent
    by_cases hg : trimChars s.input.data = [] ∨ s.loading = true
    · unfold sendMessage at hsent
      rw [if_pos hg] at hsent
      simp at hsent
    · by_cases hlt : now - s.lastRequestTime < MIN_REQUEST_INTERVAL
      · unfold sendMessage at hsent
        rw [if_neg hg, if_pos hlt] at hsent
        simp at hsent
      · refine ⟨Nat.le_of_not_lt hlt, ?_⟩
        unfold sendMessage
        rw [if_neg hg, if_neg hlt]
  · intro hsent
    by_cases hlt : now - s.lastRequestTime < MIN_REQUEST_INTERVAL
    · unfold autoAnalyzeGraph at hsent
      rw [if_neg hloadp, if_pos hlt] at hsent
      simp at hsent
    · refine ⟨Nat.le_of_not_lt hlt, ?_⟩
      unfold autoAnalyzeGraph
      rw [if_neg hloadp, if_neg hlt]

/-- Witness for C10 (amended): a concrete call 1000 ms after the last
request appends the 2-second rate-limit notice and sends nothing. -/
theorem chat_rate_limiter_witness :
    sendMessage 1000 (ChatState.mk [] "hi" false 0 false) =
      ⟨ChatState.mk [sendRateNotice 2] "hi" false 0 true, false⟩ := by
  have h := (chat_rate_limiter 1000 (ChatState.mk [] "hi" false 0 false) "G"
    rfl).1 (by decide) (by decide)
  exact h.trans (by decide)

end MAVWebUI
